import Mathlib

/-
Verification of the command-reminder store engine (src/main.rs).

Strings are modelled as `List Char` so that every operation is a plain
computable function amenable to induction.  `chars` injects Lean string
literals.  The embedding follows the Rust source function by function:
`rustLines` models `str::lines()`, `splitSpace` models `str::split(' ')`,
`write_reminders_file` models the `writeln!` that terminates every store
write with a single newline, and `do_add` / `do_remove` / `do_search`
mirror the corresponding functions in `main.rs`.  Console interaction
(`ask_yes_no`, `ask_multiple`) is abstracted into oracle arguments
(`Option Bool` / `Option Nat`, `none` modelling an I/O error of the
prompt itself), and the observable behaviour of an operation is returned
as a list of `Effect`s (prompts issued, file writes, command hand-off)
plus the operation's error result.
-/

/-- Characters of a string literal; used to write concrete inputs. -/
def chars (s : String) : List Char := s.data

/-- Split a character list on a separator character.  Mirrors Rust's
`str::split(c)`: the result is always non-empty and the empty string
splits to `[[]]`. -/
def splitOnChar (sep : Char) : List Char → List (List Char)
  | [] => [[]]
  | c :: cs =>
    if c = sep then [] :: splitOnChar sep cs
    else
      match splitOnChar sep cs with
      | [] => [[c]]
      | t :: ts => (c :: t) :: ts

/-- Join character lists with a separator character; mirrors
`Vec::join(sep)` / `slice::join`. -/
def joinChar (sep : Char) : List (List Char) → List Char
  | [] => []
  | [l] => l
  | l :: l2 :: ls => l ++ sep :: joinChar sep (l2 :: ls)

/-- Rust `str::split(' ')` as used on keyword strings. -/
def splitSpace (s : List Char) : List (List Char) := splitOnChar ' ' s

/-- Join with a single space, as `Vec::join(" ")`. -/
def joinSpace (ts : List (List Char)) : List Char := joinChar ' ' ts

/-- Join with newlines, as `Vec::join("\n")` on the line vector. -/
def joinNl (ls : List (List Char)) : List Char := joinChar '\n' ls

/-- Plain split of a text on `'\n'` (every separator splits, trailing
segment kept); first stage of modelling `str::lines()`. -/
def splitNlAll (s : List Char) : List (List Char) := splitOnChar '\n' s

/-- Drop a single trailing `'\r'`, as Rust `lines()` does for a line that
was terminated by `"\r\n"`. -/
def stripCr (l : List Char) : List Char :=
  if l.getLast? = some '\r' then l.dropLast else l

/-- Second stage of `str::lines()`: every `'\n'`-terminated segment gets a
trailing `'\r'` stripped; the final segment (text after the last `'\n'`)
is dropped when empty and otherwise kept verbatim. -/
def finishLines : List (List Char) → List (List Char)
  | [] => []
  | [l] => if l = [] then [] else [l]
  | l :: l2 :: ls => stripCr l :: finishLines (l2 :: ls)

/-- Rust `str::lines()` on the raw store text: `""` has no lines, lines
are separated by `'\n'` (a preceding `'\r'` is stripped), and a final
unterminated segment is a line of its own. -/
def rustLines (s : List Char) : List (List Char) :=
  if s = [] then [] else finishLines (splitNlAll s)

/-- `write_reminders_file` writes its argument with `writeln!`, so the
persisted file content is the argument plus a single trailing newline. -/
def write_reminders_file (data : List Char) : List Char := data ++ ['\n']

/-- Persisted form of a line sequence: `join("\n")` then the trailing
newline added by `write_reminders_file`. -/
def serialize (ls : List (List Char)) : List Char :=
  write_reminders_file (joinNl ls)

/-- Boolean prefix test on character lists (Rust `str::starts_with`). -/
def isPrefixL : List Char → List Char → Bool
  | [], _ => true
  | _ :: _, [] => false
  | a :: as, b :: bs => if a = b then isPrefixL as bs else false

/-- Substring containment (Rust `str::contains`): the needle occurs as a
contiguous run somewhere in the haystack. -/
def containsSub (needle : List Char) : List Char → Bool
  | [] => isPrefixL needle []
  | c :: t => isPrefixL needle (c :: t) || containsSub needle t

/-- `line.starts_with("#")` from `find_matching_commands`. -/
def startsWithHash (l : List Char) : Bool := isPrefixL ['#'] l

/-- `keywords.iter().any(|k| line.contains(k))`. -/
def anyContains (keywords : List (List Char)) (l : List Char) : Bool :=
  keywords.any (fun k => containsSub k l)

/-- `command.trim().is_empty()`: true iff every character is whitespace
(the guard in `do_add` that rejects empty commands). -/
def isBlank (s : List Char) : Bool := s.all (fun c => c.isWhitespace)

/-- Observable effects of one operation: prompts issued to the console,
a full-file rewrite of the store, a console notice, or a command line
handed to `run_command` for exec replacement. -/
inductive Effect where
  | write (content : List Char)
  | run (cmd : List Char)
  | promptRemove (line : List Char)
  | promptRun (line : List Char)
  | promptMerge
  | promptChoice (options : List (List Char))
  | msgNoCommands
deriving DecidableEq

/-- True exactly on store-rewrite effects. -/
def Effect.isWrite : Effect → Bool
  | .write _ => true
  | _ => false

/-- Typed failures surfaced by the operations (the `error_chain` kinds
that the modelled control flow can produce). -/
inductive OpErr where
  | addFailedEmpty
  | readingInputFailed
deriving DecidableEq

/-- `Err(_) => true, Ok(v) => v`: the fail-open decision of the remove
prompt — a prompt I/O failure counts as an affirmative answer. -/
def promptDecision (a : Option Bool) : Bool := a.getD true

/-- The index-carrying loop of `find_matching_commands`: line at index
`idx` qualifying (starts with `'#'` and contains some keyword) records
`idx + 1`. -/
def findMatchesFrom (keywords : List (List Char)) : Nat → List (List Char) → List Nat
  | _, [] => []
  | idx, l :: ls =>
    if startsWithHash l && anyContains keywords l
    then (idx + 1) :: findMatchesFrom keywords (idx + 1) ls
    else findMatchesFrom keywords (idx + 1) ls

/-- `find_matching_commands(data_lines, keywords)` from `main.rs`. -/
def find_matching_commands (data_lines : List (List Char)) (keywords : List (List Char)) : List Nat :=
  findMatchesFrom keywords 0 data_lines

/-- The confirmed command-line indices of `do_remove`: each candidate is
prompted in order and kept when the prompt answers yes or the prompt
fails (`promptDecision`); `ans` maps the position of the prompt in the
sequence to the prompt's outcome. -/
def remove_confirmed (matching : List Nat) (ans : Nat → Option Bool) : List Nat :=
  ((matching.enum.filter (fun q => promptDecision (ans q.1))).map Prod.snd)

/-- The line vector after `do_remove`'s deletion loop: confirmed indices
are processed in descending order (the source reverses the vector), each
deleting the command line `i` and then the line `i - 1` before it. -/
def remove_final_lines (data_lines : List (List Char)) (keywords_vec : List (List Char))
    (ans : Nat → Option Bool) : List (List Char) :=
  let matching := find_matching_commands data_lines keywords_vec
  let removed := (remove_confirmed matching ans).reverse
  removed.foldl (fun ls i => (ls.eraseIdx i).eraseIdx (i - 1)) data_lines

/-- `do_remove(keywords)` from `main.rs`: parse the store, match, prompt
every candidate (fail-open), delete confirmed pairs descending, rewrite
the whole store. -/
def do_remove (data : List Char) (keywords : List Char) (ans : Nat → Option Bool) : List Effect :=
  let data_lines := rustLines data
  let keywords_vec := splitSpace keywords
  let matching := find_matching_commands data_lines keywords_vec
  (matching.map (fun i => Effect.promptRemove (data_lines.getD i []))) ++
    [Effect.write (write_reminders_file (joinNl (remove_final_lines data_lines keywords_vec ans)))]

/-- `merge_keywords` builds the de-duplicated union of the new keywords
and the existing keyword line (both split on single spaces), removes the
`"#"` token, and prefixes `"# "`.  The `HashSet` iteration order of the
source is unspecified; it is modelled by `List.dedup`'s order, and all
theorems about the merged line compare token sets. -/
def merge_keyword_line (existing new : List Char) : List Char :=
  '#' :: ' ' :: joinSpace (((splitSpace new) ++ (splitSpace existing)).dedup.filter
    (fun t => t ≠ ['#']))

/-- `merge_keywords(data, _command, keywords, command_line)`: replaces the
keyword line preceding the matched command line and rewrites the store. -/
def merge_keywords (data : List Char) (keywords : List Char) (command_line : Nat) : List Effect :=
  let data_lines := rustLines data
  let merged := merge_keyword_line (data_lines.getD (command_line - 1) []) keywords
  [Effect.write (write_reminders_file (joinNl (data_lines.set (command_line - 1) merged)))]

/-- `add_to_preexisting_command`: asks to merge; a prompt failure is
propagated with `?` as a `ReadingInputFailed` error (store untouched); a
"no" leaves the store untouched and succeeds; a "yes" merges. -/
def add_to_preexisting_command (data : List Char) (keywords : List Char)
    (command_line : Nat) (ans : Option Bool) : List Effect × Option OpErr :=
  match ans with
  | none => ([Effect.promptMerge], some OpErr.readingInputFailed)
  | some false => ([Effect.promptMerge], none)
  | some true => (Effect.promptMerge :: merge_keywords data keywords command_line, none)

/-- `add_new_command`: appends `"# <keywords>\n<command>"` to the raw
store text and rewrites the file. -/
def add_new_command (data : List Char) (command keywords : List Char) : List Effect × Option OpErr :=
  ([Effect.write (write_reminders_file (data ++ ('#' :: ' ' :: keywords) ++ '\n' :: command))],
    none)

/-- `do_add(command, keywords)`: rejects blank commands, then scans every
line of the store for an exact match with `command` (first hit wins) and
either merges into that record or appends a new one. -/
def do_add (data : List Char) (command keywords : List Char) (ans : Option Bool) :
    List Effect × Option OpErr :=
  if isBlank command then ([], some OpErr.addFailedEmpty)
  else
    match (rustLines data).findIdx? (fun l => decide (l = command)) with
    | some i => add_to_preexisting_command data keywords i ans
    | none => add_new_command data command keywords

/-- `do_search(keywords)`: zero matches print a notice; exactly one match
prompts with `data_lines[0]` and on yes hands `data_lines[0]` to
`run_command`; several matches offer the matched command lines and run
the chosen one.  `yesAns` / `choiceAns` are the prompt oracles
(`none` = console read failure, surfaced as an error). -/
def do_search (data : List Char) (keywords : List (List Char)) (yesAns : Option Bool)
    (choiceAns : Option Nat) : List Effect × Option OpErr :=
  let data_lines := rustLines data
  let cmd_vec := find_matching_commands data_lines keywords
  match cmd_vec.length with
  | 0 => ([Effect.msgNoCommands], none)
  | 1 =>
    match yesAns with
    | none => ([Effect.promptRun (data_lines.getD 0 [])], some OpErr.readingInputFailed)
    | some true =>
      ([Effect.promptRun (data_lines.getD 0 []), Effect.run (data_lines.getD 0 [])], none)
    | some false => ([Effect.promptRun (data_lines.getD 0 [])], none)
  | _ + 2 =>
    let options := cmd_vec.map (fun l => data_lines.getD l [])
    match choiceAns with
    | none => ([Effect.promptChoice options], some OpErr.readingInputFailed)
    | some i => ([Effect.promptChoice options, Effect.run (options.getD i [])], none)

/-- First-space split of `run_command`: `cmd.splitn(2, " ")` yields the
text before the first space and the remainder, or the whole string when
no space occurs. -/
def splitFirstSpace : List Char → Option ((List Char) × (List Char))
  | [] => none
  | c :: cs =>
    if c = ' ' then some ([], cs)
    else
      match splitFirstSpace cs with
      | none => none
      | some (a, b) => some (c :: a, b)

/-- Rust `cmd.splitn(2, " ").collect::<Vec<_>>()`. -/
def splitn2Space (s : List Char) : List (List Char) :=
  match splitFirstSpace s with
  | none => [s]
  | some (a, b) => [a, b]

/-- `run_command`'s prepare step: split program and remainder, then split
the remainder into arguments.  When the command contains no space the
source indexes `cmd_parts[1]` on a one-element vector, a panic modelled
here as `none`. -/
def run_command (cmd : List Char) : Option ((List Char) × List (List Char)) :=
  match splitn2Space cmd with
  | [p, rest] => some (p, splitSpace rest)
  | _ => none

/-- A record pair matches the search keywords when its keyword line
starts with the marker and contains one of them (the per-line test of
`find_matching_commands` applied to the pair's keyword line). -/
def pairMatches (keywords : List (List Char)) (p : (List Char) × (List Char)) : Bool :=
  startsWithHash p.1 && anyContains keywords p.1

/-- The store's line sequence of a record-pair sequence: keyword line
then command line, per record. -/
def flattenPairs : List ((List Char) × (List Char)) → List (List Char)
  | [] => []
  | p :: ps => p.1 :: p.2 :: flattenPairs ps

/-- Record indices (counted from `k0`) of the pairs matching the search
keywords, in store order. -/
def matchedPairsFrom (keywords : List (List Char)) :
    Nat → List ((List Char) × (List Char)) → List Nat
  | _, [] => []
  | k0, p :: ps =>
    if pairMatches keywords p then k0 :: matchedPairsFrom keywords (k0 + 1) ps
    else matchedPairsFrom keywords (k0 + 1) ps

/-- Record indices whose removal is confirmed: the candidate at position
`q` of the matched sequence is removed exactly when its prompt answers
yes or the prompt itself fails (`promptDecision`). -/
def removedPairIdxs (keywords : List (List Char)) (ans : Nat → Option Bool)
    (ps : List ((List Char) × (List Char))) : List Nat :=
  remove_confirmed (matchedPairsFrom keywords 0 ps) ans

/-- Drop from `ps` (records numbered from `k0`) every pair whose record
index lies in `ks`. -/
def dropPairsFrom (ks : List Nat) :
    Nat → List ((List Char) × (List Char)) → List ((List Char) × (List Char))
  | _, [] => []
  | k0, p :: ps =>
    if k0 ∈ ks then dropPairsFrom ks (k0 + 1) ps
    else p :: dropPairsFrom ks (k0 + 1) ps

-- Sanity checks of the embedding on concrete data (kept as compile-time
-- evidence that the model matches the Rust semantics on examples).
example : rustLines (chars "# a\nls\n") = [chars "# a", chars "ls"] := by decide
example : rustLines [] = [] := by decide
example : rustLines ['\n'] = [[]] := by decide
example : rustLines (chars "a\r\nb") = [chars "a", chars "b"] := by decide
example : splitSpace (chars "a  b") = [chars "a", [], chars "b"] := by decide
example : splitSpace [] = [[]] := by decide
example : find_matching_commands [chars "# foobar baz", chars "ls"] [chars "foo"] = [1] := by
  decide
example : run_command (chars "ls -la") = some (chars "ls", [chars "-la"]) := by decide
example : run_command (chars "ls") = none := by decide
example : serialize [chars "# a", chars "ls"] = chars "# a\nls\n" := by decide

-- ### Generic lemmas about the split/join primitives

theorem splitOnChar_ne_nil (sep : Char) (s : List Char) : splitOnChar sep s ≠ [] := by
  induction s with
  | nil => simp [splitOnChar]
  | cons c cs ih =>
    simp only [splitOnChar]
    split
    · simp
    · rcases h : splitOnChar sep cs with _ | ⟨t, ts⟩ <;> simp [h]

theorem splitOnChar_sep_not_mem (sep : Char) (s : List Char) :
    ∀ t ∈ splitOnChar sep s, sep ∉ t := by
  induction s with
  | nil =>
    intro t ht
    simp [splitOnChar] at ht
    simp [ht]
  | cons c cs ih =>
    intro t ht
    simp only [splitOnChar] at ht
    by_cases hc : c = sep
    · simp only [if_pos hc] at ht
      rcases List.mem_cons.mp ht with h | h
      · simp [h]
      · exact ih t h
    · simp only [if_neg hc] at ht
      rcases hh : splitOnChar sep cs with _ | ⟨u, us⟩
      · exact absurd hh (splitOnChar_ne_nil sep cs)
      · rw [hh] at ht
        rcases List.mem_cons.mp ht with h | h
        · subst h
          intro hmem
          rcases List.mem_cons.mp hmem with h1 | h1
          · exact hc h1.symm
          · exact ih u (by rw [hh]; exact List.mem_cons_self u us) h1
        · exact ih t (by rw [hh]; exact List.mem_cons_of_mem _ h)

theorem splitOnChar_eq_single (sep : Char) (l : List Char) (h : sep ∉ l) :
    splitOnChar sep l = [l] := by
  induction l with
  | nil => rfl
  | cons c cs ih =>
    have hc : ¬ c = sep := fun e => h (by simp [e])
    have ih' := ih (fun hm => h (List.mem_cons_of_mem _ hm))
    simp [splitOnChar, hc, ih']

theorem splitOnChar_append_sep (sep : Char) (l rest : List Char) (h : sep ∉ l) :
    splitOnChar sep (l ++ sep :: rest) = l :: splitOnChar sep rest := by
  induction l with
  | nil => simp [splitOnChar]
  | cons c cs ih =>
    have hc : ¬ c = sep := fun e => h (by simp [e])
    have ih' := ih (fun hm => h (List.mem_cons_of_mem _ hm))
    simp [splitOnChar, hc, ih']

theorem splitOnChar_joinChar (sep : Char) (ts : List (List Char)) (hne : ts ≠ [])
    (hfree : ∀ t ∈ ts, sep ∉ t) : splitOnChar sep (joinChar sep ts) = ts := by
  induction ts with
  | nil => exact absurd rfl hne
  | cons t rest ih =>
    cases rest with
    | nil => simpa [joinChar] using splitOnChar_eq_single sep t (hfree t (by simp))
    | cons t2 ts2 =>
      have h1 : sep ∉ t := hfree t (by simp)
      have ih' := ih (by simp) (fun u hu => hfree u (by simp [hu]))
      simp only [joinChar]
      rw [splitOnChar_append_sep sep t _ h1, ih']

theorem joinChar_append (sep : Char) (as bs : List (List Char)) (ha : as ≠ []) (hb : bs ≠ []) :
    joinChar sep (as ++ bs) = joinChar sep as ++ sep :: joinChar sep bs := by
  induction as with
  | nil => exact absurd rfl ha
  | cons a rest ih =>
    cases rest with
    | nil =>
      cases bs with
      | nil => exact absurd rfl hb
      | cons b bs2 => simp [joinChar]
    | cons a2 as2 =>
      have ih' := ih (by simp)
      show a ++ sep :: joinChar sep ((a2 :: as2) ++ bs)
          = (a ++ sep :: joinChar sep (a2 :: as2)) ++ sep :: joinChar sep bs
      rw [ih']
      simp [List.append_assoc]

theorem isPrefixL_iff (p : List Char) : ∀ l, isPrefixL p l = true ↔ ∃ t, l = p ++ t := by
  induction p with
  | nil =>
    intro l
    constructor
    · intro _; exact ⟨l, rfl⟩
    · intro _; rfl
  | cons a as ih =>
    intro l
    cases l with
    | nil =>
      simp only [isPrefixL]
      constructor
      · intro h; simp at h
      · rintro ⟨t, ht⟩; simp at ht
    | cons b bs =>
      by_cases hab : a = b
      · subst hab
        have heq : isPrefixL (a :: as) (a :: bs) = isPrefixL as bs := by
          simp [isPrefixL]
        rw [heq, ih bs]
        constructor
        · rintro ⟨t, ht⟩
          exact ⟨t, by simp [ht]⟩
        · rintro ⟨t, ht⟩
          injection ht with _ h2
          exact ⟨t, h2⟩
      · simp only [isPrefixL, if_neg hab]
        constructor
        · intro h; simp at h
        · rintro ⟨t, ht⟩
          injection ht with h1 _
          exact absurd h1.symm hab

theorem containsSub_iff (k : List Char) : ∀ hay, containsSub k hay = true ↔
    ∃ s t, hay = s ++ k ++ t := by
  intro hay
  induction hay with
  | nil =>
    rw [show containsSub k [] = isPrefixL k [] from rfl, isPrefixL_iff]
    constructor
    · rintro ⟨t, ht⟩
      exact ⟨[], t, by simpa using ht⟩
    · rintro ⟨s, t, ht⟩
      rcases List.append_eq_nil.mp ht.symm with ⟨h1, h2⟩
      rcases List.append_eq_nil.mp h1 with ⟨h3, h4⟩
      exact ⟨[], by simp [h4]⟩
  | cons c t' ih =>
    simp only [containsSub, Bool.or_eq_true, isPrefixL_iff, ih]
    constructor
    · rintro (⟨u, hu⟩ | ⟨s, u, hu⟩)
      · exact ⟨[], u, by simpa using hu⟩
      · exact ⟨c :: s, u, by simp [hu]⟩
    · rintro ⟨s, u, hu⟩
      cases s with
      | nil => exact Or.inl ⟨u, by simpa using hu⟩
      | cons c2 s2 =>
        right
        have hu' : c :: t' = c2 :: (s2 ++ k ++ u) := by simpa using hu
        injection hu' with _ h2
        exact ⟨s2, u, h2⟩

-- ### Structure of `rustLines` on well-formed text

theorem rustLines_cons_line (l rest : List Char) (hnl : '\n' ∉ l)
    (hcr : l.getLast? ≠ some '\r') :
    rustLines (l ++ '\n' :: rest) = l :: rustLines rest := by
  have hne : (l ++ '\n' :: rest) ≠ [] := by simp
  rcases hseg : splitNlAll rest with _ | ⟨r, rs⟩
  · exact absurd hseg (splitOnChar_ne_nil '\n' rest)
  have hsplit : splitNlAll (l ++ '\n' :: rest) = l :: r :: rs := by
    show splitOnChar '\n' (l ++ '\n' :: rest) = l :: r :: rs
    rw [splitOnChar_append_sep '\n' l rest hnl,
      show splitOnChar '\n' rest = r :: rs from hseg]
  rw [rustLines, if_neg hne, hsplit,
    show finishLines (l :: r :: rs) = stripCr l :: finishLines (r :: rs) from rfl,
    stripCr, if_neg hcr]
  congr 1
  by_cases hr : rest = []
  · subst hr
    have h2 : ([[]] : List (List Char)) = r :: rs := by
      simpa [splitNlAll, splitOnChar] using hseg.symm
    injection h2 with h3 h4
    rw [← h3, ← h4]
    decide
  · rw [rustLines, if_neg hr, hseg]

theorem rustLines_serialize (ls : List (List Char)) (hne : ls ≠ [])
    (hgood : ∀ l ∈ ls, '\n' ∉ l ∧ l.getLast? ≠ some '\r') :
    rustLines (serialize ls) = ls := by
  induction ls with
  | nil => exact absurd rfl hne
  | cons l rest ih =>
    cases rest with
    | nil =>
      have h := hgood l (by simp)
      have hser : serialize [l] = l ++ '\n' :: [] := by
        simp [serialize, joinNl, joinChar, write_reminders_file]
      rw [hser, rustLines_cons_line l [] h.1 h.2]
      rfl
    | cons l2 ls2 =>
      have h := hgood l (by simp)
      have hser : serialize (l :: l2 :: ls2) = l ++ '\n' :: serialize (l2 :: ls2) := by
        simp [serialize, joinNl, joinChar, write_reminders_file, List.append_assoc]
      rw [hser, rustLines_cons_line l _ h.1 h.2,
        ih (by simp) (fun u hu => hgood u (by simp [hu]))]

/-- C7: for every well-formed store text — the persisted form of an
even-length line sequence, newline-separated with a single trailing
newline — serializing the parse reproduces the text exactly:
`serialize (parse text) = text`. -/
theorem serialize_parse_roundtrip (text : List Char)
    (h : ∃ ls, Even ls.length ∧ (∀ l ∈ ls, '\n' ∉ l ∧ l.getLast? ≠ some '\r') ∧
      text = serialize ls) :
    serialize (rustLines text) = text := by
  obtain ⟨ls, _, hgood, rfl⟩ := h
  cases ls with
  | nil => decide
  | cons l rest => rw [rustLines_serialize _ (by simp) hgood]

/-- C7 witness: the round-trip theorem applied to the concrete
well-formed two-line store `"# a\nls\n"`. -/
theorem serialize_parse_roundtrip_witness :
    (∃ ls, Even ls.length ∧ (∀ l ∈ ls, '\n' ∉ l ∧ l.getLast? ≠ some '\r') ∧
      chars "# a\nls\n" = serialize ls) ∧
    serialize (rustLines (chars "# a\nls\n")) = chars "# a\nls\n" :=
  ⟨⟨[chars "# a", chars "ls"], by decide, by decide, by decide⟩,
    serialize_parse_roundtrip _ ⟨[chars "# a", chars "ls"], by decide, by decide, by decide⟩⟩

-- ### Search is read-only; the single-match branch runs the wrong line

/-- C10: the search operation never writes the store — in every branch
(zero matches, one match with any prompt outcome, several matches with
any choice outcome) the effect trace of `do_search` contains no store
rewrite. -/
theorem do_search_never_writes (data : List Char) (keywords : List (List Char))
    (yesAns : Option Bool) (choiceAns : Option Nat) :
    ((do_search data keywords yesAns choiceAns).1.all (fun e => !e.isWrite)) = true := by
  simp only [do_search]
  cases hn : (find_matching_commands (rustLines data) keywords).length with
  | zero => rfl
  | succ n =>
    cases n with
    | zero =>
      rcases yesAns with _ | b
      · rfl
      · cases b <;> rfl
    | succ n => rcases choiceAns with _ | i <;> rfl

/-- C1: on the two-line store `"# list files\nls -la\n"` the search for
`"list"` has exactly one match, whose command line is `"ls -la"`
(index 1); yet on a yes answer `do_search` prompts with and hands to the
invoker `data_lines[0] = "# list files"` — the keyword line — not the
matched command line.  This evaluates the code at the failing input of
the C1 code bug. -/
theorem do_search_single_match_runs_first_line :
    find_matching_commands (rustLines (chars "# list files\nls -la\n")) [chars "list"] = [1]
    ∧ (rustLines (chars "# list files\nls -la\n")).getD 1 [] = chars "ls -la"
    ∧ do_search (chars "# list files\nls -la\n") [chars "list"] (some true) none
        = ([Effect.promptRun (chars "# list files"), Effect.run (chars "# list files")], none)
    ∧ chars "# list files" ≠ chars "ls -la" :=
  ⟨by decide, by decide, by decide, by decide⟩

/-- C8: a remove invocation on the fresh empty store (zero lines, an even
count) rewrites the file as `"\n"` — `writeln!` applied to the empty
join — which parses as one empty line: an odd line count, violating the
claimed invariant. -/
theorem do_remove_empty_store_writes_one_line :
    do_remove [] (chars "x") (fun _ => some true) = [Effect.write ['\n']]
    ∧ rustLines ['\n'] = [[]]
    ∧ ¬ Even (rustLines ['\n']).length :=
  ⟨rfl, by decide, by decide⟩

/-- C9: `run_command` on a command line containing no space builds a
one-element `cmd_parts` and then reads `cmd_parts[1]`: an out-of-range
access (modelled as `none`), instead of the claimed "program with zero
arguments".  With at least one space the split works as described. -/
theorem run_command_no_space_out_of_range :
    run_command (chars "ls") = none
    ∧ run_command (chars "ls -la") = some (chars "ls", [chars "-la"]) :=
  ⟨by decide, by decide⟩

-- ### Add: duplicate check and the two merge-prompt outcomes

/-- C4 counterexample: the store `"# a\nls\n"` has a record whose command
line equals the added command `"ls"`; when the merge prompt itself fails
(`none`), `do_add` returns the `ReadingInputFailed` error — not silent
success as claimed (the store is indeed left unchanged: no write
effect). -/
theorem add_merge_prompt_failure_errors :
    rustLines (chars "# a\nls\n") = [chars "# a", chars "ls"]
    ∧ do_add (chars "# a\nls\n") (chars "ls") (chars "x") none
        = ([Effect.promptMerge], some OpErr.readingInputFailed) :=
  ⟨by decide, by decide⟩

/-- C4 amended: when a line of the store equals the added command, a "no"
answer leaves the store unchanged (no write effect) and succeeds
silently, while a prompt failure leaves the store unchanged but makes the
operation return a `ReadingInputFailed` error instead of success. -/
theorem do_add_existing_no_or_prompt_failure (data command keywords : List Char) (i : Nat)
    (hb : isBlank command = false)
    (hfind : (rustLines data).findIdx? (fun l => decide (l = command)) = some i) :
    do_add data command keywords (some false) = ([Effect.promptMerge], none)
    ∧ do_add data command keywords none
        = ([Effect.promptMerge], some OpErr.readingInputFailed) := by
  constructor <;> simp [do_add, hb, hfind, add_to_preexisting_command]

/-- C4 witness: the amended theorem applied to the concrete store
`"# a\nls\n"` and command `"ls"` (matched at line index 1). -/
theorem do_add_existing_no_or_prompt_failure_witness :
    (isBlank (chars "ls") = false
      ∧ (rustLines (chars "# a\nls\n")).findIdx? (fun l => decide (l = chars "ls")) = some 1)
    ∧ do_add (chars "# a\nls\n") (chars "ls") (chars "x") (some false)
        = ([Effect.promptMerge], none)
    ∧ do_add (chars "# a\nls\n") (chars "ls") (chars "x") none
        = ([Effect.promptMerge], some OpErr.readingInputFailed) :=
  ⟨⟨by decide, by decide⟩,
    do_add_existing_no_or_prompt_failure (chars "# a\nls\n") (chars "ls") (chars "x") 1
      (by decide) (by decide)⟩

/-- C3 counterexample: in the store `"# ls\nls -l\n"` the only record's
command line is `"ls -l"`, so the non-empty command `"# ls"` matches no
record's command line and the claim demands an append; but the duplicate
check of `do_add` compares against every line, hits the keyword line
`"# ls"`, and takes the merge path — with a "no" answer nothing is
written at all. -/
theorem add_duplicate_check_scans_keyword_lines :
    rustLines (chars "# ls\nls -l\n") = [chars "# ls", chars "ls -l"]
    ∧ chars "# ls" ≠ chars "ls -l"
    ∧ isBlank (chars "# ls") = false
    ∧ do_add (chars "# ls\nls -l\n") (chars "# ls") (chars "x") (some false)
        = ([Effect.promptMerge], none) :=
  ⟨by decide, by decide, by decide, by decide⟩

theorem getLast?_hash_space (keywords : List Char) (hkr : keywords.getLast? ≠ some '\r') :
    ('#' :: ' ' :: keywords).getLast? ≠ some '\r' := by
  cases keywords with
  | nil => simp
  | cons c cs =>
    rw [List.getLast?_cons_cons]
    cases cs with
    | nil => simpa using hkr
    | cons c2 cs2 => rw [List.getLast?_cons_cons]; exact hkr

/-- C3 amended: the duplicate check of `do_add` compares the command for
an exact full-line match against every line of the store (keyword lines
included), not command lines only; for every well-formed store and
non-blank command equal to no line of the store, `do_add` performs
exactly one write, appending exactly one keyword line (marker, space,
keywords verbatim) followed by the command line at the end of the store,
leaving all prior lines untouched. -/
theorem do_add_new_command_appends (data command keywords : List Char) (ans : Option Bool)
    (hb : isBlank command = false)
    (hnol : ∀ l ∈ rustLines data, l ≠ command)
    (hcn : '\n' ∉ command) (hcr : command.getLast? ≠ some '\r')
    (hkn : '\n' ∉ keywords) (hkr : keywords.getLast? ≠ some '\r')
    (hwf : data = [] ∨ ∃ ls, ls ≠ [] ∧ (∀ l ∈ ls, '\n' ∉ l ∧ l.getLast? ≠ some '\r')
        ∧ data = serialize ls) :
    do_add data command keywords ans
      = ([Effect.write (serialize (rustLines data ++ [('#' :: ' ' :: keywords), command]))], none)
    ∧ rustLines (serialize (rustLines data ++ [('#' :: ' ' :: keywords), command]))
        = rustLines data ++ [('#' :: ' ' :: keywords), command] := by
  have hfind : (rustLines data).findIdx? (fun l => decide (l = command)) = none := by
    rw [List.findIdx?_eq_none_iff]
    intro l hl
    simpa using hnol l hl
  have hkline_n : '\n' ∉ ('#' :: ' ' :: keywords) := by simp [hkn]
  have hkline_r := getLast?_hash_space keywords hkr
  have hgood2 : ∀ l ∈ [('#' :: ' ' :: keywords), command],
      '\n' ∉ l ∧ l.getLast? ≠ some '\r' := by
    intro l hl
    rcases List.mem_cons.mp hl with h | h
    · subst h; exact ⟨hkline_n, hkline_r⟩
    · have hc : l = command := by simpa using h
      subst hc; exact ⟨hcn, hcr⟩
  have hdo : do_add data command keywords ans
      = ([Effect.write (write_reminders_file
          (data ++ ('#' :: ' ' :: keywords) ++ '\n' :: command))], none) := by
    simp [do_add, hb, hfind, add_new_command]
  rcases hwf with rfl | ⟨ls, hlsne, hlsgood, rfl⟩
  · constructor
    · rw [hdo]
      simp [rustLines, serialize, joinNl, joinChar, write_reminders_file]
    · simp only [show rustLines ([] : List Char) = [] from rfl, List.nil_append]
      exact rustLines_serialize _ (by simp) hgood2
  · have hparse : rustLines (serialize ls) = ls := rustLines_serialize ls hlsne hlsgood
    have hgood3 : ∀ l ∈ ls ++ [('#' :: ' ' :: keywords), command],
        '\n' ∉ l ∧ l.getLast? ≠ some '\r' := by
      intro l hl
      rcases List.mem_append.mp hl with h | h
      · exact hlsgood l h
      · exact hgood2 l h
    have hj : joinNl (ls ++ [('#' :: ' ' :: keywords), command])
        = joinNl ls ++ '\n' :: (('#' :: ' ' :: keywords) ++ '\n' :: command) := by
      have hja := joinChar_append '\n' ls [('#' :: ' ' :: keywords), command] hlsne (by simp)
      simpa [joinNl, joinChar] using hja
    constructor
    · rw [hdo, hparse]
      simp [serialize, write_reminders_file, hj, List.append_assoc]
    · rw [hparse]
      exact rustLines_serialize _ (by simp) hgood3

/-- C3 witness: the amended append theorem applied to the store
`"# a\nls\n"` with the fresh command `"pwd"` and keywords `"dir"`. -/
theorem do_add_new_command_appends_witness :
    (isBlank (chars "pwd") = false
      ∧ (∀ l ∈ rustLines (chars "# a\nls\n"), l ≠ chars "pwd")
      ∧ '\n' ∉ chars "pwd" ∧ (chars "pwd").getLast? ≠ some '\r'
      ∧ '\n' ∉ chars "dir" ∧ (chars "dir").getLast? ≠ some '\r')
    ∧ do_add (chars "# a\nls\n") (chars "pwd") (chars "dir") (some true)
        = ([Effect.write (serialize (rustLines (chars "# a\nls\n")
            ++ [('#' :: ' ' :: chars "dir"), chars "pwd"]))], none)
    ∧ rustLines (serialize (rustLines (chars "# a\nls\n")
          ++ [('#' :: ' ' :: chars "dir"), chars "pwd"]))
        = rustLines (chars "# a\nls\n") ++ [('#' :: ' ' :: chars "dir"), chars "pwd"] :=
  ⟨⟨by decide, by decide, by decide, by decide, by decide, by decide⟩,
    do_add_new_command_appends (chars "# a\nls\n") (chars "pwd") (chars "dir") (some true)
      (by decide) (by decide) (by decide) (by decide) (by decide) (by decide)
      (Or.inr ⟨[chars "# a", chars "ls"], by decide, by decide, by decide⟩)⟩

-- ### Characterisation of the keyword matcher

theorem qualifies_iff (keywords : List (List Char)) (l : List Char) :
    (startsWithHash l && anyContains keywords l) = true ↔
      (∃ r, l = '#' :: r) ∧ (∃ k ∈ keywords, ∃ s t, l = s ++ k ++ t) := by
  simp only [startsWithHash, anyContains, Bool.and_eq_true, List.any_eq_true]
  constructor
  · rintro ⟨h1, h2⟩
    constructor
    · obtain ⟨t, ht⟩ := (isPrefixL_iff ['#'] l).mp h1
      exact ⟨t, by simpa using ht⟩
    · obtain ⟨k, hk, hc⟩ := h2
      exact ⟨k, hk, (containsSub_iff k l).mp hc⟩
  · rintro ⟨⟨r, hr⟩, ⟨k, hk, hs⟩⟩
    constructor
    · exact (isPrefixL_iff ['#'] l).mpr ⟨r, by simpa using hr⟩
    · exact ⟨k, hk, (containsSub_iff k l).mpr hs⟩

theorem findMatchesFrom_mem (keywords : List (List Char)) :
    ∀ (ls : List (List Char)) (i0 j : Nat),
      j ∈ findMatchesFrom keywords i0 ls ↔
        ∃ d l, ls.get? d = some l ∧ j = i0 + d + 1
          ∧ (startsWithHash l && anyContains keywords l) = true := by
  intro ls
  induction ls with
  | nil => intro i0 j; simp [findMatchesFrom]
  | cons l ls ih =>
    intro i0 j
    have hunf : findMatchesFrom keywords i0 (l :: ls)
        = if (startsWithHash l && anyContains keywords l)
          then (i0 + 1) :: findMatchesFrom keywords (i0 + 1) ls
          else findMatchesFrom keywords (i0 + 1) ls := rfl
    rw [hunf]
    by_cases hq : (startsWithHash l && anyContains keywords l) = true
    · rw [if_pos hq]
      constructor
      · intro hj
        rcases List.mem_cons.mp hj with h | h
        · exact ⟨0, l, by simp, by omega, hq⟩
        · obtain ⟨d, l2, hget, hj2, hqual⟩ := (ih (i0 + 1) j).mp h
          exact ⟨d + 1, l2, by simpa using hget, by omega, hqual⟩
      · rintro ⟨d, l2, hget, hj2, hqual⟩
        cases d with
        | zero =>
          subst hj2
          simp
        | succ d =>
          refine List.mem_cons_of_mem _ ((ih (i0 + 1) j).mpr ⟨d, l2, by simpa using hget, by omega, hqual⟩)
    · rw [if_neg hq, ih (i0 + 1) j]
      constructor
      · rintro ⟨d, l2, hget, hj2, hqual⟩
        exact ⟨d + 1, l2, by simpa using hget, by omega, hqual⟩
      · rintro ⟨d, l2, hget, hj2, hqual⟩
        cases d with
        | zero =>
          have hl : l = l2 := by simpa using hget
          subst hl
          exact absurd hqual hq
        | succ d => exact ⟨d, l2, by simpa using hget, by omega, hqual⟩

theorem findMatchesFrom_gt (keywords : List (List Char)) (ls : List (List Char)) (i0 : Nat) :
    ∀ j ∈ findMatchesFrom keywords i0 ls, i0 < j := by
  intro j hj
  obtain ⟨d, l, _, hj2, _⟩ := (findMatchesFrom_mem keywords ls i0 j).mp hj
  omega

theorem findMatchesFrom_sorted (keywords : List (List Char)) :
    ∀ (ls : List (List Char)) (i0 : Nat),
      List.Pairwise (· < ·) (findMatchesFrom keywords i0 ls) := by
  intro ls
  induction ls with
  | nil => intro i0; simp [findMatchesFrom]
  | cons l ls ih =>
    intro i0
    have hunf : findMatchesFrom keywords i0 (l :: ls)
        = if (startsWithHash l && anyContains keywords l)
          then (i0 + 1) :: findMatchesFrom keywords (i0 + 1) ls
          else findMatchesFrom keywords (i0 + 1) ls := rfl
    rw [hunf]
    by_cases hq : (startsWithHash l && anyContains keywords l) = true
    · rw [if_pos hq]
      refine List.Pairwise.cons ?_ (ih (i0 + 1))
      intro j hj
      have := findMatchesFrom_gt keywords ls (i0 + 1) j hj
      omega
    · rw [if_neg hq]
      exact ih (i0 + 1)

/-- C6: `find_matching_commands` returns exactly the indices `i + 1` of
lines at position `i` that start with the marker character and contain
at least one search keyword as a substring (substring containment, not
token-exact), in increasing store order, and the empty sequence when no
line qualifies. -/
theorem find_matching_commands_spec (data_lines : List (List Char))
    (keywords : List (List Char)) :
    (∀ j, j ∈ find_matching_commands data_lines keywords ↔
      ∃ i l, data_lines.get? i = some l ∧ j = i + 1
        ∧ (∃ r, l = '#' :: r)
        ∧ (∃ k ∈ keywords, ∃ s t, l = s ++ k ++ t))
    ∧ List.Pairwise (· < ·) (find_matching_commands data_lines keywords)
    ∧ ((∀ i l, data_lines.get? i = some l →
          ¬((∃ r, l = '#' :: r) ∧ ∃ k ∈ keywords, ∃ s t, l = s ++ k ++ t)) →
        find_matching_commands data_lines keywords = []) := by
  have hmem : ∀ j, j ∈ find_matching_commands data_lines keywords ↔
      ∃ i l, data_lines.get? i = some l ∧ j = i + 1
        ∧ (∃ r, l = '#' :: r)
        ∧ (∃ k ∈ keywords, ∃ s t, l = s ++ k ++ t) := by
    intro j
    rw [find_matching_commands, findMatchesFrom_mem keywords data_lines 0 j]
    constructor
    · rintro ⟨d, l, hget, hj, hq⟩
      obtain ⟨hq1, hq2⟩ := (qualifies_iff keywords l).mp hq
      exact ⟨d, l, hget, by omega, hq1, hq2⟩
    · rintro ⟨i, l, hget, hj, hq1, hq2⟩
      exact ⟨i, l, hget, by omega, (qualifies_iff keywords l).mpr ⟨hq1, hq2⟩⟩
  refine ⟨hmem, findMatchesFrom_sorted keywords data_lines 0, ?_⟩
  intro hno
  rw [List.eq_nil_iff_forall_not_mem]
  intro j hj
  obtain ⟨i, l, hget, _, hq1, hq2⟩ := (hmem j).mp hj
  exact hno i l hget ⟨hq1, hq2⟩

/-- C6 witness: the characterisation applied to a concrete store,
exhibiting the substring (not token-exact) match of `"foo"` against the
keyword line `"# foobar baz"`. -/
theorem find_matching_commands_spec_witness :
    1 ∈ find_matching_commands [chars "# foobar baz", chars "ls"] [chars "foo"] :=
  ((find_matching_commands_spec [chars "# foobar baz", chars "ls"] [chars "foo"]).1 1).mpr
    ⟨0, chars "# foobar baz", by decide, rfl, ⟨chars " foobar baz", by decide⟩,
      ⟨chars "foo", by decide, ⟨chars "# ", chars "bar baz", by decide⟩⟩⟩

-- ### The keyword merger

theorem merge_keyword_line_tokens (e n : List Char) (h : ['#'] ∉ splitSpace n) :
    splitSpace (merge_keyword_line e n)
      = ['#'] :: ((splitSpace n ++ splitSpace e).dedup.filter (fun t => t ≠ ['#'])) := by
  unfold merge_keyword_line
  have h1 : ∀ X, splitSpace ('#' :: ' ' :: X) = ['#'] :: splitSpace X := fun X => rfl
  rw [show joinSpace ((splitSpace n ++ splitSpace e).dedup.filter (fun t => t ≠ ['#']))
      = joinChar ' ' ((splitSpace n ++ splitSpace e).dedup.filter (fun t => t ≠ ['#'])) from rfl]
  rw [h1]
  congr 1
  have hn0 : splitSpace n ≠ [] := splitOnChar_ne_nil ' ' n
  obtain ⟨t0, ts0, hx⟩ := List.exists_cons_of_ne_nil hn0
  have ht0n : t0 ∈ splitSpace n := by rw [hx]; exact List.mem_cons_self _ _
  have ht0ne : t0 ≠ ['#'] := fun hh => h (hh ▸ ht0n)
  have ht0mem : t0 ∈ (splitSpace n ++ splitSpace e).dedup := by
    rw [List.mem_dedup]
    exact List.mem_append_left _ ht0n
  have ht0filter : t0 ∈ (splitSpace n ++ splitSpace e).dedup.filter (fun t => t ≠ ['#']) :=
    List.mem_filter.mpr ⟨ht0mem, by simpa using ht0ne⟩
  apply splitOnChar_joinChar
  · exact List.ne_nil_of_mem ht0filter
  · intro t htmem
    have hm := List.mem_filter.mp htmem
    have h2 := List.mem_dedup.mp hm.1
    rcases List.mem_append.mp h2 with hh | hh
    · exact splitOnChar_sep_not_mem ' ' n t hh
    · exact splitOnChar_sep_not_mem ' ' e t hh

theorem merge_keyword_line_finset (e n : List Char) (h : ['#'] ∉ splitSpace n) :
    (splitSpace (merge_keyword_line e n)).toFinset
      = insert ['#'] (((splitSpace e).toFinset ∪ (splitSpace n).toFinset).erase ['#']) := by
  rw [merge_keyword_line_tokens e n h]
  ext x
  simp [List.mem_filter, List.mem_dedup]
  tauto

/-- C5: the merged keyword line's token set is the de-duplicated union of
the existing line's and the new keywords' token sets with the marker
removed from the union, with the marker token then appearing exactly once
and first; the resulting set depends only on the input token sets (order
independence), and merging the same keywords into the merged line again
yields the same set (idempotence).  The hypothesis reflects the data
model's rule that the marker itself is never a keyword. -/
theorem merge_keyword_line_spec (e n : List Char) (h : ['#'] ∉ splitSpace n) :
    (splitSpace (merge_keyword_line e n)).toFinset
      = insert ['#'] (((splitSpace e).toFinset ∪ (splitSpace n).toFinset).erase ['#'])
    ∧ (splitSpace (merge_keyword_line e n)).head? = some ['#']
    ∧ (splitSpace (merge_keyword_line e n)).count ['#'] = 1
    ∧ (∀ e2 n2, ['#'] ∉ splitSpace n2 →
        (splitSpace e2).toFinset = (splitSpace e).toFinset →
        (splitSpace n2).toFinset = (splitSpace n).toFinset →
        (splitSpace (merge_keyword_line e2 n2)).toFinset
          = (splitSpace (merge_keyword_line e n)).toFinset)
    ∧ (splitSpace (merge_keyword_line (merge_keyword_line e n) n)).toFinset
      = (splitSpace (merge_keyword_line e n)).toFinset := by
  have htok := merge_keyword_line_tokens e n h
  refine ⟨merge_keyword_line_finset e n h, ?_, ?_, ?_, ?_⟩
  · rw [htok]
    rfl
  · rw [htok]
    have hnot : ['#'] ∉ (splitSpace n ++ splitSpace e).dedup.filter (fun t => t ≠ ['#']) := by
      intro hmem
      have := (List.mem_filter.mp hmem).2
      simp at this
    rw [List.count_cons_self, List.count_eq_zero.mpr hnot]
  · intro e2 n2 h2 he hn
    rw [merge_keyword_line_finset e2 n2 h2, merge_keyword_line_finset e n h, he, hn]
  · rw [merge_keyword_line_finset _ n h, merge_keyword_line_finset e n h]
    ext x
    simp only [Finset.mem_insert, Finset.mem_erase, Finset.mem_union, List.mem_toFinset]
    tauto

/-- C5 witness: the merge theorem applied to the keyword line `"# a"`
and new keywords `"b"`. -/
theorem merge_keyword_line_spec_witness :
    (['#'] ∉ splitSpace (chars "b"))
    ∧ ((splitSpace (merge_keyword_line (chars "# a") (chars "b"))).toFinset
        = insert ['#'] (((splitSpace (chars "# a")).toFinset
            ∪ (splitSpace (chars "b")).toFinset).erase ['#'])
      ∧ (splitSpace (merge_keyword_line (chars "# a") (chars "b"))).head? = some ['#']
      ∧ (splitSpace (merge_keyword_line (chars "# a") (chars "b"))).count ['#'] = 1
      ∧ (∀ e2 n2, ['#'] ∉ splitSpace n2 →
          (splitSpace e2).toFinset = (splitSpace (chars "# a")).toFinset →
          (splitSpace n2).toFinset = (splitSpace (chars "b")).toFinset →
          (splitSpace (merge_keyword_line e2 n2)).toFinset
            = (splitSpace (merge_keyword_line (chars "# a") (chars "b"))).toFinset)
      ∧ (splitSpace (merge_keyword_line
            (merge_keyword_line (chars "# a") (chars "b")) (chars "b"))).toFinset
        = (splitSpace (merge_keyword_line (chars "# a") (chars "b"))).toFinset) :=
  ⟨by decide, merge_keyword_line_spec (chars "# a") (chars "b") (by decide)⟩

-- ### Remove: matching, confirmation and pair deletion on well-formed stores

theorem findMatchesFrom_flattenPairs (keywords : List (List Char)) :
    ∀ (ps : List ((List Char) × (List Char))) (k0 : Nat),
      (∀ p ∈ ps, startsWithHash p.2 = false) →
      findMatchesFrom keywords (2 * k0) (flattenPairs ps)
        = (matchedPairsFrom keywords k0 ps).map (fun k => 2 * k + 1) := by
  intro ps
  induction ps with
  | nil => intro k0 _; rfl
  | cons p ps ih =>
    intro k0 hcmd
    have hcmd0 : startsWithHash p.2 = false := hcmd p (by simp)
    have ih' := ih (k0 + 1) (fun q hq2 => hcmd q (by simp [hq2]))
    have e1 : findMatchesFrom keywords (2 * k0) (flattenPairs (p :: ps))
        = if (startsWithHash p.1 && anyContains keywords p.1)
          then (2 * k0 + 1) :: findMatchesFrom keywords (2 * k0 + 1) (p.2 :: flattenPairs ps)
          else findMatchesFrom keywords (2 * k0 + 1) (p.2 :: flattenPairs ps) := rfl
    have e2 : findMatchesFrom keywords (2 * k0 + 1) (p.2 :: flattenPairs ps)
        = findMatchesFrom keywords (2 * (k0 + 1)) (flattenPairs ps) := by
      have hq2 : (startsWithHash p.2 && anyContains keywords p.2) = false := by
        rw [hcmd0]; rfl
      have e2a : findMatchesFrom keywords (2 * k0 + 1) (p.2 :: flattenPairs ps)
          = if (startsWithHash p.2 && anyContains keywords p.2)
            then (2 * k0 + 1 + 1) :: findMatchesFrom keywords (2 * k0 + 1 + 1) (flattenPairs ps)
            else findMatchesFrom keywords (2 * k0 + 1 + 1) (flattenPairs ps) := rfl
      rw [e2a, hq2]
      have : 2 * k0 + 1 + 1 = 2 * (k0 + 1) := by ring
      rw [this]
      rfl
    have e3 : matchedPairsFrom keywords k0 (p :: ps)
        = if pairMatches keywords p then k0 :: matchedPairsFrom keywords (k0 + 1) ps
          else matchedPairsFrom keywords (k0 + 1) ps := rfl
    rw [e1, e2, e3]
    by_cases hq : pairMatches keywords p = true
    · rw [if_pos hq, if_pos (show (startsWithHash p.1 && anyContains keywords p.1) = true from hq)]
      rw [ih', List.map_cons]
    · rw [if_neg hq,
        if_neg (show ¬(startsWithHash p.1 && anyContains keywords p.1) = true from hq)]
      exact ih'

theorem matchedPairsFrom_bounds (keywords : List (List Char)) :
    ∀ (ps : List ((List Char) × (List Char))) (k0 : Nat),
      ∀ k ∈ matchedPairsFrom keywords k0 ps, k0 ≤ k ∧ k < k0 + ps.length := by
  intro ps
  induction ps with
  | nil => intro k0 k hk; simp [matchedPairsFrom] at hk
  | cons p ps ih =>
    intro k0 k hk
    have e3 : matchedPairsFrom keywords k0 (p :: ps)
        = if pairMatches keywords p then k0 :: matchedPairsFrom keywords (k0 + 1) ps
          else matchedPairsFrom keywords (k0 + 1) ps := rfl
    rw [e3] at hk
    simp only [List.length_cons]
    by_cases hq : pairMatches keywords p = true
    · rw [if_pos hq] at hk
      rcases List.mem_cons.mp hk with h | h
      · omega
      · have := ih (k0 + 1) k h
        omega
    · rw [if_neg hq] at hk
      have := ih (k0 + 1) k hk
      omega

theorem matchedPairsFrom_sorted (keywords : List (List Char)) :
    ∀ (ps : List ((List Char) × (List Char))) (k0 : Nat),
      List.Pairwise (· < ·) (matchedPairsFrom keywords k0 ps) := by
  intro ps
  induction ps with
  | nil => intro k0; simp [matchedPairsFrom]
  | cons p ps ih =>
    intro k0
    have e3 : matchedPairsFrom keywords k0 (p :: ps)
        = if pairMatches keywords p then k0 :: matchedPairsFrom keywords (k0 + 1) ps
          else matchedPairsFrom keywords (k0 + 1) ps := rfl
    rw [e3]
    by_cases hq : pairMatches keywords p = true
    · rw [if_pos hq]
      refine List.Pairwise.cons ?_ (ih (k0 + 1))
      intro k hk
      have := (matchedPairsFrom_bounds keywords ps (k0 + 1) k hk).1
      omega
    · rw [if_neg hq]
      exact ih (k0 + 1)

theorem enumFrom_filter_map_snd_map (f : Nat → Nat) (d : Nat → Bool) :
    ∀ (l : List Nat) (i0 : Nat),
      (((l.map f).enumFrom i0).filter (fun q => d q.1)).map Prod.snd
        = (((l.enumFrom i0).filter (fun q => d q.1)).map Prod.snd).map f := by
  intro l
  induction l with
  | nil => intro i0; rfl
  | cons a l ih =>
    intro i0
    have e1 : ((a :: l).map f).enumFrom i0 = (i0, f a) :: ((l.map f).enumFrom (i0 + 1)) := rfl
    have e2 : (a :: l).enumFrom i0 = (i0, a) :: (l.enumFrom (i0 + 1)) := rfl
    rw [e1, e2, List.filter_cons, List.filter_cons]
    by_cases hd : d i0 = true <;> simp [hd, ih (i0 + 1)]

theorem remove_confirmed_map (f : Nat → Nat) (l : List Nat) (ans : Nat → Option Bool) :
    remove_confirmed (l.map f) ans = (remove_confirmed l ans).map f := by
  show (((l.map f).enumFrom 0).filter (fun q => promptDecision (ans q.1))).map Prod.snd
      = (((l.enumFrom 0).filter (fun q => promptDecision (ans q.1))).map Prod.snd).map f
  exact enumFrom_filter_map_snd_map f (fun p => promptDecision (ans p)) l 0

theorem foldRemove_ge_one :
    ∀ (ks : List Nat), (∀ k ∈ ks, 1 ≤ k) →
    ∀ (a b : List Char) (M : List (List Char)),
      ks.foldr (fun k ls => (ls.eraseIdx (2 * k + 1)).eraseIdx (2 * k)) (a :: b :: M)
        = a :: b :: ((ks.map (fun k => k - 1)).foldr
            (fun k ls => (ls.eraseIdx (2 * k + 1)).eraseIdx (2 * k)) M) := by
  intro ks
  induction ks with
  | nil => intro _ a b M; rfl
  | cons k ks ih =>
    intro hks a b M
    have hk1 : 1 ≤ k := hks k (by simp)
    obtain ⟨j, rfl⟩ : ∃ j, k = j + 1 := ⟨k - 1, by omega⟩
    have ih' := ih (fun q hq => hks q (by simp [hq])) a b M
    rw [List.foldr_cons, ih']
    have e1 : (2 * (j + 1) + 1) = (2 * j + 1) + 2 := by ring
    have e2 : (2 * (j + 1)) = (2 * j) + 2 := by ring
    rw [e1, e2]
    rfl

theorem dropPairsFrom_shift (ks : List Nat) (h0 : 0 ∉ ks) :
    ∀ (ps : List ((List Char) × (List Char))) (k0 : Nat),
      dropPairsFrom ks (k0 + 1) ps = dropPairsFrom (ks.map (fun k => k - 1)) k0 ps := by
  intro ps
  induction ps with
  | nil => intro k0; rfl
  | cons p ps ih =>
    intro k0
    have hmem : ((k0 + 1) ∈ ks) ↔ (k0 ∈ ks.map (fun k => k - 1)) := by
      constructor
      · intro hk; exact List.mem_map.mpr ⟨k0 + 1, hk, by omega⟩
      · intro hk
        obtain ⟨j, hj, hje⟩ := List.mem_map.mp hk
        have hj1 : j ≠ 0 := fun e => h0 (e ▸ hj)
        have hjk : j = k0 + 1 := by omega
        exact hjk ▸ hj
    show (if (k0 + 1) ∈ ks then dropPairsFrom ks (k0 + 1 + 1) ps
          else p :: dropPairsFrom ks (k0 + 1 + 1) ps)
        = (if k0 ∈ ks.map (fun k => k - 1)
          then dropPairsFrom (ks.map (fun k => k - 1)) (k0 + 1) ps
          else p :: dropPairsFrom (ks.map (fun k => k - 1)) (k0 + 1) ps)
    rw [ih (k0 + 1)]
    by_cases hk : (k0 + 1) ∈ ks
    · rw [if_pos hk, if_pos (hmem.mp hk)]
    · rw [if_neg hk, if_neg (fun hc => hk (hmem.mpr hc))]

theorem dropPairsFrom_zero_cons (ks : List Nat) :
    ∀ (ps : List ((List Char) × (List Char))) (k0 : Nat), 1 ≤ k0 →
      dropPairsFrom (0 :: ks) k0 ps = dropPairsFrom ks k0 ps := by
  intro ps
  induction ps with
  | nil => intro k0 _; rfl
  | cons p ps ih =>
    intro k0 hk0
    have hmem : (k0 ∈ 0 :: ks) ↔ (k0 ∈ ks) := by
      constructor
      · intro h
        rcases List.mem_cons.mp h with h | h
        · omega
        · exact h
      · exact fun h => List.mem_cons_of_mem _ h
    show (if k0 ∈ 0 :: ks then dropPairsFrom (0 :: ks) (k0 + 1) ps
          else p :: dropPairsFrom (0 :: ks) (k0 + 1) ps)
        = (if k0 ∈ ks then dropPairsFrom ks (k0 + 1) ps
          else p :: dropPairsFrom ks (k0 + 1) ps)
    rw [ih (k0 + 1) (by omega)]
    by_cases hk : k0 ∈ ks
    · rw [if_pos (hmem.mpr hk), if_pos hk]
    · rw [if_neg (fun hc => hk (hmem.mp hc)), if_neg hk]

theorem pairwise_lt_map_pred (ks : List Nat) (h1 : ∀ k ∈ ks, 1 ≤ k)
    (hs : List.Pairwise (· < ·) ks) :
    List.Pairwise (· < ·) (ks.map (fun k => k - 1)) := by
  rw [List.pairwise_map]
  refine hs.imp_of_mem ?_
  intro a b ha hb hab
  have := h1 a ha
  omega

theorem pairwise_lt_length_le (ks : List Nat) (n : Nat) (hs : List.Pairwise (· < ·) ks)
    (hb : ∀ k ∈ ks, k < n) : ks.length ≤ n := by
  have hnd : ks.Nodup := hs.imp (fun h => Nat.ne_of_lt h)
  have hcard : ks.toFinset.card = ks.length := List.toFinset_card_of_nodup hnd
  have hsub : ks.toFinset ⊆ Finset.range n := by
    intro x hx
    rw [Finset.mem_range]
    exact hb x (List.mem_toFinset.mp hx)
  have hle := Finset.card_le_card hsub
  rw [hcard, Finset.card_range] at hle
  exact hle

theorem flattenPairs_length :
    ∀ (ps : List ((List Char) × (List Char))), (flattenPairs ps).length = 2 * ps.length := by
  intro ps
  induction ps with
  | nil => rfl
  | cons p ps ih =>
    show (flattenPairs ps).length + 1 + 1 = 2 * (ps.length + 1)
    omega

theorem foldRemove_spec :
    ∀ (ps : List ((List Char) × (List Char))) (ks : List Nat),
      List.Pairwise (· < ·) ks → (∀ k ∈ ks, k < ps.length) →
      ks.foldr (fun k ls => (ls.eraseIdx (2 * k + 1)).eraseIdx (2 * k)) (flattenPairs ps)
          = flattenPairs (dropPairsFrom ks 0 ps)
        ∧ (dropPairsFrom ks 0 ps).length = ps.length - ks.length := by
  intro ps
  induction ps with
  | nil =>
    intro ks hs hb
    have hnil : ks = [] := by
      cases ks with
      | nil => rfl
      | cons k ks =>
        have := hb k (by simp)
        simp at this
    subst hnil
    exact ⟨rfl, rfl⟩
  | cons p ps ih =>
    intro ks hs hb
    by_cases h0 : 0 ∈ ks
    · obtain ⟨ks2, rfl⟩ : ∃ ks2, ks = 0 :: ks2 := by
        cases ks with
        | nil => simp at h0
        | cons k ks2 =>
          rcases List.mem_cons.mp h0 with h | h
          · exact ⟨ks2, by rw [← h]⟩
          · have := List.rel_of_pairwise_cons hs h
            omega
      have hge1 : ∀ k ∈ ks2, 1 ≤ k := by
        intro k hk
        have := List.rel_of_pairwise_cons hs hk
        omega
      have hs2 : List.Pairwise (· < ·) ks2 := List.Pairwise.of_cons hs
      have h0n : 0 ∉ ks2 := fun hc => by have := hge1 0 hc; omega
      have hb2 : ∀ k ∈ ks2.map (fun k => k - 1), k < ps.length := by
        intro k hk
        obtain ⟨j, hj, rfl⟩ := List.mem_map.mp hk
        have hbj := hb j (List.mem_cons_of_mem _ hj)
        have h1j := hge1 j hj
        simp only [List.length_cons] at hbj
        omega
      have hA := foldRemove_ge_one ks2 hge1 p.1 p.2 (flattenPairs ps)
      have hL : (0 :: ks2).foldr (fun k ls => (ls.eraseIdx (2 * k + 1)).eraseIdx (2 * k))
            (flattenPairs (p :: ps))
          = (ks2.map (fun k => k - 1)).foldr
              (fun k ls => (ls.eraseIdx (2 * k + 1)).eraseIdx (2 * k)) (flattenPairs ps) := by
        rw [List.foldr_cons,
          show flattenPairs (p :: ps) = p.1 :: p.2 :: flattenPairs ps from rfl, hA]
        rfl
      have hR : dropPairsFrom (0 :: ks2) 0 (p :: ps)
          = dropPairsFrom (ks2.map (fun k => k - 1)) 0 ps := by
        have e1 : dropPairsFrom (0 :: ks2) 0 (p :: ps)
            = dropPairsFrom (0 :: ks2) (0 + 1) ps := by
          show (if (0 : Nat) ∈ 0 :: ks2 then dropPairsFrom (0 :: ks2) (0 + 1) ps
              else p :: dropPairsFrom (0 :: ks2) (0 + 1) ps)
            = dropPairsFrom (0 :: ks2) (0 + 1) ps
          rw [if_pos (List.mem_cons_self 0 ks2)]
        rw [e1, dropPairsFrom_zero_cons ks2 ps (0 + 1) (by omega),
          dropPairsFrom_shift ks2 h0n ps 0]
      obtain ⟨ihe, ihl⟩ := ih (ks2.map (fun k => k - 1))
        (pairwise_lt_map_pred ks2 hge1 hs2) hb2
      constructor
      · rw [hL, hR, ihe]
      · rw [hR, ihl]
        simp only [List.length_map, List.length_cons]
        omega
    · have hge1 : ∀ k ∈ ks, 1 ≤ k := by
        intro k hk
        rcases Nat.eq_zero_or_pos k with h | h
        · exact absurd (h ▸ hk) h0
        · omega
      have hb2 : ∀ k ∈ ks.map (fun k => k - 1), k < ps.length := by
        intro k hk
        obtain ⟨j, hj, rfl⟩ := List.mem_map.mp hk
        have hbj := hb j hj
        have h1j := hge1 j hj
        simp only [List.length_cons] at hbj
        omega
      have hA := foldRemove_ge_one ks hge1 p.1 p.2 (flattenPairs ps)
      have hL : ks.foldr (fun k ls => (ls.eraseIdx (2 * k + 1)).eraseIdx (2 * k))
            (flattenPairs (p :: ps))
          = p.1 :: p.2 :: ((ks.map (fun k => k - 1)).foldr
              (fun k ls => (ls.eraseIdx (2 * k + 1)).eraseIdx (2 * k)) (flattenPairs ps)) := by
        rw [show flattenPairs (p :: ps) = p.1 :: p.2 :: flattenPairs ps from rfl]
        exact hA
      have hR : dropPairsFrom ks 0 (p :: ps)
          = p :: dropPairsFrom (ks.map (fun k => k - 1)) 0 ps := by
        show (if (0 : Nat) ∈ ks then dropPairsFrom ks (0 + 1) ps
            else p :: dropPairsFrom ks (0 + 1) ps)
          = p :: dropPairsFrom (ks.map (fun k => k - 1)) 0 ps
        rw [if_neg h0, dropPairsFrom_shift ks h0 ps 0]
      obtain ⟨ihe, ihl⟩ := ih (ks.map (fun k => k - 1))
        (pairwise_lt_map_pred ks hge1 hs) hb2
      have hle : (ks.map (fun k => k - 1)).length ≤ ps.length :=
        pairwise_lt_length_le _ _ (pairwise_lt_map_pred ks hge1 hs) hb2
      constructor
      · rw [hL, hR, ihe]
        rfl
      · rw [hR]
        simp only [List.length_cons, ihl, List.length_map]
        simp only [List.length_map] at hle
        omega

theorem flattenPairs_getD (ps : List ((List Char) × (List Char))) :
    ∀ k, k < ps.length → (flattenPairs ps).getD (2 * k + 1) [] = (ps.getD k ([], [])).2 := by
  induction ps with
  | nil => intro k hk; simp at hk
  | cons p ps ih =>
    intro k hk
    cases k with
    | zero => rfl
    | succ k =>
      have e : (2 * (k + 1) + 1) = (2 * k + 1) + 1 + 1 := by ring
      rw [e, show flattenPairs (p :: ps) = p.1 :: p.2 :: flattenPairs ps from rfl,
        List.getD_cons_succ, List.getD_cons_succ, List.getD_cons_succ]
      refine ih k ?_
      simp only [List.length_cons] at hk
      omega

/-- C2: for every store parsed as contiguous keyword/command record pairs
(command lines not starting with the marker) and every remove invocation:
every matching candidate is prompted with its command line in store
order; a candidate's record is removed exactly when its prompt answers
yes or the prompt itself fails (`removedPairIdxs` via `promptDecision`);
the confirmed command-line indices are processed in descending order,
each deleting the command line and its paired preceding keyword line, so
the rewritten store is exactly the non-confirmed records in order and the
total line count decreases by exactly 2 per confirmed removal; all other
lines are untouched. -/
theorem do_remove_spec (data keywords : List Char) (ans : Nat → Option Bool)
    (ps : List ((List Char) × (List Char)))
    (hlines : rustLines data = flattenPairs ps)
    (hcmd : ∀ p ∈ ps, startsWithHash p.2 = false) :
    do_remove data keywords ans
      = ((matchedPairsFrom (splitSpace keywords) 0 ps).map
          (fun k => Effect.promptRemove (ps.getD k ([], [])).2))
        ++ [Effect.write (write_reminders_file (joinNl (flattenPairs
            (dropPairsFrom (removedPairIdxs (splitSpace keywords) ans ps) 0 ps))))]
    ∧ remove_final_lines (flattenPairs ps) (splitSpace keywords) ans
        = flattenPairs (dropPairsFrom (removedPairIdxs (splitSpace keywords) ans ps) 0 ps)
    ∧ (remove_final_lines (flattenPairs ps) (splitSpace keywords) ans).length
        = (flattenPairs ps).length
          - 2 * (removedPairIdxs (splitSpace keywords) ans ps).length := by
  have hmatch : find_matching_commands (flattenPairs ps) (splitSpace keywords)
      = (matchedPairsFrom (splitSpace keywords) 0 ps).map (fun k => 2 * k + 1) :=
    findMatchesFrom_flattenPairs (splitSpace keywords) ps 0 hcmd
  have hconf : remove_confirmed
        (find_matching_commands (flattenPairs ps) (splitSpace keywords)) ans
      = (removedPairIdxs (splitSpace keywords) ans ps).map (fun k => 2 * k + 1) := by
    rw [hmatch]
    exact remove_confirmed_map _ _ ans
  have hsubl : List.Sublist (removedPairIdxs (splitSpace keywords) ans ps)
      (matchedPairsFrom (splitSpace keywords) 0 ps) := by
    have h1 : List.Sublist ((matchedPairsFrom (splitSpace keywords) 0 ps).enum.filter
          (fun q => promptDecision (ans q.1)))
        ((matchedPairsFrom (splitSpace keywords) 0 ps).enum) :=
      List.filter_sublist _
    have h2 := h1.map Prod.snd
    rw [List.enum_map_snd] at h2
    exact h2
  have hsor : List.Pairwise (· < ·) (removedPairIdxs (splitSpace keywords) ans ps) :=
    List.Pairwise.sublist hsubl (matchedPairsFrom_sorted (splitSpace keywords) ps 0)
  have hbnd : ∀ k ∈ removedPairIdxs (splitSpace keywords) ans ps, k < ps.length := by
    intro k hk
    have := (matchedPairsFrom_bounds (splitSpace keywords) ps 0 k (hsubl.subset hk)).2
    omega
  obtain ⟨hfold, hlen⟩ :=
    foldRemove_spec ps (removedPairIdxs (splitSpace keywords) ans ps) hsor hbnd
  have hfinal : remove_final_lines (flattenPairs ps) (splitSpace keywords) ans
      = flattenPairs (dropPairsFrom (removedPairIdxs (splitSpace keywords) ans ps) 0 ps) := by
    show ((remove_confirmed
        (find_matching_commands (flattenPairs ps) (splitSpace keywords)) ans).reverse).foldl
        (fun ls i => (ls.eraseIdx i).eraseIdx (i - 1)) (flattenPairs ps)
      = flattenPairs (dropPairsFrom (removedPairIdxs (splitSpace keywords) ans ps) 0 ps)
    rw [hconf, List.foldl_reverse, List.foldr_map]
    simp only [Nat.add_sub_cancel]
    exact hfold
  refine ⟨?_, hfinal, ?_⟩
  · show (find_matching_commands (rustLines data) (splitSpace keywords)).map
        (fun i => Effect.promptRemove ((rustLines data).getD i []))
      ++ [Effect.write (write_reminders_file (joinNl
          (remove_final_lines (rustLines data) (splitSpace keywords) ans)))]
      = _
    rw [hlines, hmatch, hfinal, List.map_map]
    congr 1
    refine List.map_congr_left ?_
    intro k hk
    have hklt : k < ps.length := by
      have := (matchedPairsFrom_bounds (splitSpace keywords) ps 0 k hk).2
      omega
    show Effect.promptRemove ((flattenPairs ps).getD (2 * k + 1) [])
        = Effect.promptRemove (ps.getD k ([], [])).2
    rw [flattenPairs_getD ps k hklt]
  · rw [hfinal, flattenPairs_length, flattenPairs_length, hlen]
    have hle : (removedPairIdxs (splitSpace keywords) ans ps).length ≤ ps.length :=
      pairwise_lt_length_le _ _ hsor hbnd
    omega

/-- C2 witness: the remove theorem applied to the two-record store
`"# a\nb\n# c\nd\n"` with search keywords `"a"` (matching only the first
record) and an always-yes prompt oracle. -/
theorem do_remove_spec_witness :
    (rustLines (chars "# a\nb\n# c\nd\n")
        = flattenPairs [(chars "# a", chars "b"), (chars "# c", chars "d")]
      ∧ (∀ p ∈ [(chars "# a", chars "b"), (chars "# c", chars "d")],
          startsWithHash p.2 = false))
    ∧ (do_remove (chars "# a\nb\n# c\nd\n") (chars "a") (fun _ => some true)
        = ((matchedPairsFrom (splitSpace (chars "a")) 0
              [(chars "# a", chars "b"), (chars "# c", chars "d")]).map
            (fun k => Effect.promptRemove
              (([(chars "# a", chars "b"), (chars "# c", chars "d")].getD k ([], [])).2)))
          ++ [Effect.write (write_reminders_file (joinNl (flattenPairs
              (dropPairsFrom (removedPairIdxs (splitSpace (chars "a")) (fun _ => some true)
                  [(chars "# a", chars "b"), (chars "# c", chars "d")]) 0
                [(chars "# a", chars "b"), (chars "# c", chars "d")]))))]
      ∧ remove_final_lines
            (flattenPairs [(chars "# a", chars "b"), (chars "# c", chars "d")])
            (splitSpace (chars "a")) (fun _ => some true)
          = flattenPairs
              (dropPairsFrom (removedPairIdxs (splitSpace (chars "a")) (fun _ => some true)
                  [(chars "# a", chars "b"), (chars "# c", chars "d")]) 0
                [(chars "# a", chars "b"), (chars "# c", chars "d")])
      ∧ (remove_final_lines
            (flattenPairs [(chars "# a", chars "b"), (chars "# c", chars "d")])
            (splitSpace (chars "a")) (fun _ => some true)).length
          = (flattenPairs [(chars "# a", chars "b"), (chars "# c", chars "d")]).length
            - 2 * (removedPairIdxs (splitSpace (chars "a")) (fun _ => some true)
                [(chars "# a", chars "b"), (chars "# c", chars "d")]).length) :=
  ⟨⟨by decide, by decide⟩,
    do_remove_spec (chars "# a\nb\n# c\nd\n") (chars "a") (fun _ => some true)
      [(chars "# a", chars "b"), (chars "# c", chars "d")] (by decide) (by decide)⟩
